import Mathlib

/-!
Shallow embedding of `src/notebooks/data_processing_ext/src/lib.rs`, the
batch statistical-signal engine of the LHC-aging-analysis repository.

Modelling conventions:
* `f64` data values are embedded as exact rationals `ℚ`; every comparison the
  source performs on data (`>=`, `<`, `>`, `== 0.0`) is an order comparison
  that `ℚ` reproduces exactly on non-NaN inputs.  The one place where NaN
  semantics matter (the `partial_cmp.unwrap` inside the offset sort of
  `estimate_gaussian_params_batch`) is modelled separately with `Option ℚ`
  (`none` = NaN) and an `Except` result for the panic.
* The transcendental constant `2.0 * (2.0f64.ln()).sqrt()` of the sigma
  estimate, and the `sqrt` of the normalizer, are embedded over `ℝ`.
* `i32` channel ids are embedded as `ℤ` (only equality is used), `u64`
  counts and `usize` sizes as `ℕ`.
* Rust's `f64 as usize` cast (truncation toward zero, saturating at 0 for
  negative/NaN inputs) is embedded as `Int.toNat ∘ Int.floor`; the two agree
  on every rational input (they differ only in how they reach 0 for
  negative inputs).
* A Rust panic (`unwrap`/`expect`/out-of-bounds index) is embedded as
  `Except.error` / `Option.none` at the point where the source can panic.
* The three row-indexed batch functions pipe their per-row closures through
  rayon's `par_bridge`, whose `collect` is documented not to preserve item
  order (unlike the indexed `par_iter` used by the histogram builder).
  They are therefore embedded as relations: a possible output is any
  permutation of the list of per-row results taken in input order.
-/

/-! ## Per-channel histogram builder (`create_histograms_batch`, lib.rs 9-66) -/

/-- Events that pass the channel + range filter of lines 29-39:
`ch_id == channel_id && qtc_val >= range_min && qtc_val < range_max`. -/
def filteredValues (values : List ℚ) (chans : List ℤ) (cid : ℤ)
    (rmin rmax : ℚ) : List ℚ :=
  ((values.zip chans).filter
    (fun p => p.2 = cid ∧ rmin ≤ p.1 ∧ p.1 < rmax)).map (fun p => p.1)

/-- Bin index of line 48: `((value - range_min) / bin_width) as usize`.
The saturating float-to-`usize` cast is `Int.toNat ∘ Int.floor` on `ℚ`. -/
def binIdx (v rmin bw : ℚ) : ℕ :=
  (Int.floor ((v - rmin) / bw)).toNat

/-- Histogram filling loop of lines 46-52: start from `vec![0u64; bins]` and
increment bin `binIdx v` for each value whose index lands below `bins`. -/
def histOf (fd : List ℚ) (bins : ℕ) (rmin rmax : ℚ) : List ℕ :=
  let bw := (rmax - rmin) / (bins : ℚ)
  fd.foldl
    (fun hh v =>
      if binIdx v rmin bw < bins then
        hh.set (binIdx v rmin bw) (hh.getD (binIdx v rmin bw) 0 + 1)
      else hh)
    (List.replicate bins 0)

/-- Per-channel closure of lines 27-55: `None` below the hard-coded
`min_samples = 100` gate, otherwise the histogram and the filtered count. -/
def processChannel (values : List ℚ) (chans : List ℤ) (cid : ℤ)
    (bins : ℕ) (rmin rmax : ℚ) : Option (List ℕ × ℕ) :=
  let fd := filteredValues values chans cid rmin rmax
  if fd.length < 100 then none
  else some (histOf fd bins rmin rmax, fd.length)

/-- Whole `create_histograms_batch` (spec name `build_histograms`): the
channel-keyed map is embedded as the association list produced by the
`filter_map` over the requested channels. -/
def create_histograms_batch (values : List ℚ) (chans : List ℤ)
    (channels : List ℤ) (bins : ℕ) (rmin rmax : ℚ) :
    List (ℤ × List ℕ × ℕ) :=
  channels.filterMap
    (fun c => (processChannel values chans c bins rmin rmax).map
      (fun r => (c, r)))

/-! ## Weighted mean (`weighted_mean_batch`, lib.rs 70-100) -/

/-- Per-row closure of lines 82-95: zero-total-weight guard, otherwise the
dot product (the element `zip` truncates to the shorter row, as in the
source) divided by the total weight. -/
def rowMean (vals ws : List ℚ) : ℚ :=
  if ws.sum = 0 then 0
  else (List.zipWith (fun v w => v * w) vals ws).sum / ws.sum

/-- Whole `weighted_mean_batch` (spec name `weighted_mean_rows`): the row
`zip` of lines 78-80 is sequential and truncates to the shorter input, but
the zipped rows then go through `par_bridge` (line 81), whose `collect`
does not preserve item order; a possible output is any permutation of the
per-row results taken in input order. -/
def weighted_mean_batch (v w : List (List ℚ)) (out : List ℚ) : Prop :=
  out.Perm (List.zipWith rowMean v w)

/-! ## Constrained peak finder (`find_peaks_batch`, lib.rs 104-152) -/

/-- Indices whose bin center lies in the closed window, lines 119-129.
The source's `enumerate().filter_map` over `bin_centers` is exactly a
filter of `range bins.length` by the predicate on the center. -/
def validIndices (bins : List ℚ) (rmin rmax : ℚ) : List ℕ :=
  (List.range bins.length).filter
    (fun i => rmin ≤ bins.getD i 0 ∧ bins.getD i 0 ≤ rmax)

/-- One step of the scan of lines 139-144: replace the running pair only on
a strict increase (`hist_row[idx] > max_val`). -/
def peakStep (hist : List ℚ) (a : ℚ × ℕ) (i : ℕ) : ℚ × ℕ :=
  if a.1 < hist.getD i 0 then (hist.getD i 0, i) else a

/-- Per-row closure of lines 117-146: `0.0` sentinel on an empty window,
otherwise the scan starting from `max_val = 0.0, max_idx = 0`. -/
def rowPeak (hist bins : List ℚ) (rmin rmax : ℚ) : ℚ :=
  let vi := validIndices bins rmin rmax
  if vi = [] then 0
  else bins.getD (vi.foldl (peakStep hist) (0, 0)).2 0

/-- Whole `find_peaks_batch` (spec name `find_peaks`): the rows go through
`par_bridge` (line 116), whose `collect` does not preserve item order; a
possible output is any permutation of the per-row peaks in input order. -/
def find_peaks_batch (hists : List (List ℚ)) (bins : List ℚ)
    (rmin rmax : ℚ) (out : List ℚ) : Prop :=
  out.Perm (hists.map (fun row => rowPeak row bins rmin rmax))

/-! ## Gaussian seed estimator (`estimate_gaussian_params_batch`, lib.rs 156-242) -/

/-- Fit-window indices of lines 181-191:
`bin_center >= fit_min && bin_center <= fit_max`. -/
def fitIndices (bins : List ℚ) (fmin fmax : ℚ) : List ℕ :=
  (List.range bins.length).filter
    (fun i => fmin ≤ bins.getD i 0 ∧ bins.getD i 0 ≤ fmax)

/-- Windowed `(center, count)` pairs of lines 198-201. -/
def fitData (hist bins : List ℚ) (idxs : List ℕ) : List (ℚ × ℚ) :=
  idxs.map (fun i => (bins.getD i 0, hist.getD i 0))

/-- Amplitude of line 204: a `max` fold over the windowed counts starting
from `0.0` (so an all-negative window yields `0.0`, as in `f64`). -/
def amplitudeOf (fd : List (ℚ × ℚ)) : ℚ :=
  fd.foldl (fun acc p => max acc p.2) 0

/-- Centers whose count reaches half the amplitude, lines 208-212. -/
def aboveHalf (fd : List (ℚ × ℚ)) : List ℚ :=
  (fd.filter (fun p => amplitudeOf fd / 2 ≤ p.2)).map (fun p => p.1)

/-- Maximum fold of line 215, starting from `0.0` exactly as the source. -/
def foldMax0 (l : List ℚ) : ℚ :=
  l.foldl max 0

/-- Minimum fold of line 216.  The source starts from `f64::INFINITY`; for a
nonempty list that equals folding the tail from the head, which is how it is
used (the enclosing branch guarantees at least two elements).  On `[]` the
source would return `+inf`, which `ℚ` cannot hold; `0` stands in for that
unreachable case. -/
def foldMinInf (l : List ℚ) : ℚ :=
  match l with
  | [] => 0
  | x :: xs => xs.foldl min x

/-- Constant the source divides the FWHM by, line 218:
`2.0 * (2.0f64.ln()).sqrt()` — note the `2` is *outside* the square root. -/
noncomputable def fwhmDivisor : ℝ :=
  2 * Real.sqrt (Real.log 2)

/-- Sigma estimate of lines 207-221: FWHM-based when at least two centers
reach half maximum, otherwise the `(fit_max - fit_min) / 6` fallback. -/
noncomputable def sigmaOf (fd : List (ℚ × ℚ)) (fmin fmax : ℚ) : ℝ :=
  if 1 < (aboveHalf fd).length then
    ((foldMax0 (aboveHalf fd) - foldMinInf (aboveHalf fd) : ℚ) : ℝ) / fwhmDivisor
  else (((fmax - fmin) / 6 : ℚ) : ℝ)

/-- Offset estimate of lines 223-230 on NaN-free data: sort the windowed
counts ascending and take index `len/10` (when `len > 10`) or `0`.  The
source indexes the sorted vector directly; both indexings are in bounds
whenever this code is reached (window length at least 10), which is proved
separately over the NaN-aware model `offsetE`. -/
def offsetOf (fd : List (ℚ × ℚ)) : ℚ :=
  let ys := List.insertionSort (fun a b => a ≤ b) (fd.map (fun p => p.2))
  if 10 < ys.length then ys.getD (ys.length / 10) 0 else ys.getD 0 0

/-- Per-row closure of lines 172-233: the `peak_pos == 0.0` sentinel, the
`< 10` window gate, then `[amplitude, mean, sigma, offset]`. -/
noncomputable def gaussRow (hist bins : List ℚ) (peak flo fhi : ℚ) :
    List ℝ :=
  if peak = 0 then [0, 0, 0, 0]
  else if (fitIndices bins (flo * peak) (fhi * peak)).length < 10 then
    [0, 0, 0, 0]
  else
    [((amplitudeOf (fitData hist bins (fitIndices bins (flo * peak) (fhi * peak))) : ℚ) : ℝ),
     ((peak : ℚ) : ℝ),
     sigmaOf (fitData hist bins (fitIndices bins (flo * peak) (fhi * peak)))
       (flo * peak) (fhi * peak),
     ((offsetOf (fitData hist bins (fitIndices bins (flo * peak) (fhi * peak))) : ℚ) : ℝ)]

/-- Whole `estimate_gaussian_params_batch` (spec name
`estimate_gaussian_params`).  The row/peak `zip` of line 170 is sequential
and truncates to the shorter input, the zipped pairs go through
`par_bridge` (line 171) — so the 4-element rows are collected, flattened
and reshaped in a scheduling-dependent order — and the final
`Array2::from_shape_vec((hists.nrows(), 4), _).expect` of lines 238-239
panics (`none`) when fewer than `nrows` rows were produced, i.e. when
`peak_positions` is shorter than the histogram rows. -/
def estimate_gaussian_params_batch (hists : List (List ℚ))
    (bins : List ℚ) (peaks : List ℚ) (flo fhi : ℚ)
    (res : Option (List (List ℝ))) : Prop :=
  if peaks.length < hists.length then res = none
  else ∃ out, out.Perm
      (List.zipWith (fun row p => gaussRow row bins p flo fhi) hists peaks) ∧
    res = some out

/-! ## NaN-aware model of the offset sort (lib.rs 224-230)

The pure-`ℚ` embedding above cannot represent NaN, but line 225
(`y_values.sort_by(|a, b| a.partial_cmp(b).unwrap())`) panics exactly when
the comparator meets a NaN.  Values are re-embedded here as `Option ℚ`
(`none` = NaN) and the panic as `Except.error`. -/

/-- Behaviour of `f64::partial_cmp`: `none` when either operand is NaN. -/
def partialCmpF (a b : Option ℚ) : Option Ordering :=
  match a, b with
  | some x, some y => some (compare x y)
  | _, _ => none

/-- Monadic ordered insert driven by the unwrapping comparator of line 225:
the first comparison meeting a NaN aborts the whole sort (the panic). -/
def insertByF (x : Option ℚ) : List (Option ℚ) → Except Unit (List (Option ℚ))
  | [] => Except.ok [x]
  | y :: ys =>
    match partialCmpF x y with
    | none => Except.error ()
    | some o =>
      if o = Ordering.gt then (insertByF x ys).map (fun r => y :: r)
      else Except.ok (x :: y :: ys)

/-- Sort model for `slice::sort_by` with the unwrapping comparator: an
insertion sort in the `Except` monad.  It agrees with the source's adaptive
merge sort on every property used here: on NaN-free data it succeeds and
returns a sorted permutation (in particular of the same length), and on a
slice of length at least 2 containing a NaN some comparison meets the NaN,
so the call panics. -/
def sortByF : List (Option ℚ) → Except Unit (List (Option ℚ))
  | [] => Except.ok []
  | x :: xs => (sortByF xs).bind (fun s => insertByF x s)

/-- Offset computation of lines 224-230 over the NaN-aware model: sort,
then index `len/10` (when `len > 10`) or `0`; an out-of-bounds index is the
indexing panic. -/
def offsetE (ys : List (Option ℚ)) : Except Unit (Option ℚ) :=
  match sortByF ys with
  | Except.error e => Except.error e
  | Except.ok s =>
    match s[if 10 < ys.length then ys.length / 10 else 0]? with
    | some v => Except.ok v
    | none => Except.error ()

/-! ## Cross-channel normalizer (`normalize_channels_batch`, lib.rs 246-285) -/

/-- Whole `normalize_channels_batch` (spec name `normalize_channels`),
lines 252-284: reference mean (`mean().unwrap_or(0.0)`, and Lean's
`x / 0 = 0` convention matches the `0.0` fallback for an empty list),
sample standard deviation for two or more references, the per-target ratio,
and the propagated error. -/
noncomputable def normalize_channels_batch (targets terrs refs : List ℝ) :
    List ℝ × List ℝ :=
  let refAvg := refs.sum / (refs.length : ℝ)
  let refStd : ℝ :=
    if 1 < refs.length then
      Real.sqrt ((refs.map (fun x => (x - refAvg) ^ 2)).sum /
        ((refs.length - 1 : ℕ) : ℝ))
    else 0
  (targets.map (fun t => t / refAvg),
   (targets.zip terrs).map
     (fun p => Real.sqrt ((p.2 / refAvg) ^ 2 +
       (p.1 * refStd / refAvg ^ 2) ^ 2)))

/-! ## General helper lemmas -/

/-- Every element of a `zipWith` is the image of a matched pair of entries
at some common index. -/
theorem mem_zipWith_exists {α β γ : Type} (f : α → β → γ) :
    ∀ (as : List α) (bs : List β) (x : γ), x ∈ List.zipWith f as bs →
      ∃ (i : ℕ) (a : α) (b : β), as[i]? = some a ∧ bs[i]? = some b ∧
        x = f a b := by
  intro as
  induction as with
  | nil => intro bs x hx; simp at hx
  | cons a as ih =>
    intro bs x hx
    cases bs with
    | nil => simp at hx
    | cons b bs =>
      rw [List.zipWith_cons_cons] at hx
      rcases List.mem_cons.mp hx with rfl | hx
      · exact ⟨0, a, b, by simp, by simp, rfl⟩
      · obtain ⟨i, a', b', h1, h2, h3⟩ := ih bs x hx
        exact ⟨i + 1, a', b', by simpa using h1, by simpa using h2, h3⟩

/-! ## Claim theorems -/

/-- Evaluation of one full Gaussian-seed row: peak `10`, fit window
`[5, 15]` holding all 11 bins, amplitude `10`, half-maximum centers
`{9, 10, 11}` (so `fwhm = 2`), and offset `1` (index `11/10 = 1` of the
sorted counts). -/
theorem gaussRow_eval_example :
    gaussRow [1, 1, 1, 2, 6, 10, 6, 2, 1, 1, 1]
      [5, 6, 7, 8, 9, 10, 11, 12, 13, 14, 15] 10 (1 / 2) (3 / 2) =
      [10, 10, ((2 : ℚ) : ℝ) / fwhmDivisor, 1] := by
  have hfi : fitIndices [5, 6, 7, 8, 9, 10, 11, 12, 13, 14, 15] 5 15 =
      [0, 1, 2, 3, 4, 5, 6, 7, 8, 9, 10] := by decide
  have hfd : fitData [1, 1, 1, 2, 6, 10, 6, 2, 1, 1, 1]
      [5, 6, 7, 8, 9, 10, 11, 12, 13, 14, 15]
      [0, 1, 2, 3, 4, 5, 6, 7, 8, 9, 10] =
      [(5, 1), (6, 1), (7, 1), (8, 2), (9, 6), (10, 10), (11, 6),
       (12, 2), (13, 1), (14, 1), (15, 1)] := by decide
  have hamp : amplitudeOf
      [((5 : ℚ), (1 : ℚ)), (6, 1), (7, 1), (8, 2), (9, 6), (10, 10), (11, 6),
       (12, 2), (13, 1), (14, 1), (15, 1)] = 10 := by decide
  have hah : aboveHalf
      [((5 : ℚ), (1 : ℚ)), (6, 1), (7, 1), (8, 2), (9, 6), (10, 10), (11, 6),
       (12, 2), (13, 1), (14, 1), (15, 1)] = [9, 10, 11] := by
    rw [aboveHalf, hamp, show ((10 : ℚ) / 2) = 5 by norm_num]
    decide
  have hsig : sigmaOf
      [((5 : ℚ), (1 : ℚ)), (6, 1), (7, 1), (8, 2), (9, 6), (10, 10), (11, 6),
       (12, 2), (13, 1), (14, 1), (15, 1)] 5 15 =
      ((2 : ℚ) : ℝ) / fwhmDivisor := by
    rw [sigmaOf, hah, if_pos (by decide : 1 < ([(9 : ℚ), 10, 11]).length),
      show foldMax0 [(9 : ℚ), 10, 11] - foldMinInf [(9 : ℚ), 10, 11] = 2 by
        rw [show foldMax0 [(9 : ℚ), 10, 11] = 11 by decide,
          show foldMinInf [(9 : ℚ), 10, 11] = 9 by decide]
        norm_num]
  have hoff : offsetOf
      [((5 : ℚ), (1 : ℚ)), (6, 1), (7, 1), (8, 2), (9, 6), (10, 10), (11, 6),
       (12, 2), (13, 1), (14, 1), (15, 1)] = 1 := by decide
  rw [gaussRow, show ((1 : ℚ) / 2 * 10) = 5 by norm_num,
    show ((3 : ℚ) / 2 * 10) = 15 by norm_num,
    if_neg (by norm_num : ¬ (10 : ℚ) = 0), hfi,
    if_neg (by decide : ¬ ([0, 1, 2, 3, 4, 5, 6, 7, 8, 9, 10] : List ℕ).length < 10),
    hfd, hsig, hamp, hoff]
  norm_num

/-- C7.  In `weighted_mean_batch`, a row whose weights sum to exactly zero
yields exactly `0` (the exact-arithmetic embedding has no NaN/infinity to
propagate, matching the guard's purpose), and a row with nonzero total
weight yields the sum of the value-weight products divided by the total
weight. -/
theorem weighted_mean_zero_guard (vals ws : List ℚ) :
    (ws.sum = 0 → rowMean vals ws = 0) ∧
    (ws.sum ≠ 0 →
      rowMean vals ws =
        (List.zipWith (fun v w => v * w) vals ws).sum / ws.sum) := by
  refine ⟨fun h => ?_, fun h => ?_⟩ <;> simp [rowMean, h]

/-- Witness for C7 at the spec's own example rows. -/
theorem weighted_mean_zero_guard_witness :
    rowMean [(1 : ℚ), 2, 3] [0, 0, 0] = 0 ∧
    rowMean [(1 : ℚ), 2, 3] [1, 1, 1] = 2 := by
  refine ⟨(weighted_mean_zero_guard [(1 : ℚ), 2, 3] [0, 0, 0]).1 (by norm_num), ?_⟩
  rw [(weighted_mean_zero_guard [(1 : ℚ), 2, 3] [1, 1, 1]).2 (by norm_num)]
  norm_num

/-- C9.  A row whose peak position is exactly `0` (the "no peak" sentinel)
produces the all-zero parameter row regardless of the histogram row. -/
theorem gaussian_zero_peak_sentinel (hist bins : List ℚ) (flo fhi : ℚ) :
    gaussRow hist bins 0 flo fhi = [0, 0, 0, 0] := by
  simp [gaussRow]

/-- C2 counterexample.  With two value rows and one weight row — a shape
mismatch — `weighted_mean_batch` does not fail: a result is produced (and,
the result being a singleton, `[1.0]` is the only possible output), the
one-row truncation, so the claimed fail-fast error does not happen. -/
theorem weighted_mean_shape_cex :
    [[(1 : ℚ)], [2]].length ≠ [[(1 : ℚ)]].length ∧
    weighted_mean_batch [[(1 : ℚ)], [2]] [[(1 : ℚ)]] [1] ∧
    ∀ out, weighted_mean_batch [[(1 : ℚ)], [2]] [[(1 : ℚ)]] out →
      out = [1] := by
  refine ⟨by decide, ?_, ?_⟩
  · simp only [weighted_mean_batch, List.zipWith_cons_cons,
      List.zipWith_nil_right]
    rw [show rowMean [(1 : ℚ)] [1] = 1 by norm_num [rowMean]]
  · intro out h
    have h' : out.Perm [rowMean [(1 : ℚ)] [1]] := by
      simpa only [weighted_mean_batch, List.zipWith_cons_cons,
        List.zipWith_nil_right] using h
    rw [show rowMean [(1 : ℚ)] [1] = 1 by norm_num [rowMean]] at h'
    exact List.perm_singleton.mp h'

/-- C2 amended.  `weighted_mean_batch` performs no shape validation and
reports no error: every possible output of the bridged collect has `min`
of the two row counts entries, and each entry is the weighted mean of a
matched pair of rows of the common prefix (output order itself is
scheduling-dependent). -/
theorem weighted_mean_shape_truncation (v w : List (List ℚ))
    (out : List ℚ) (hout : weighted_mean_batch v w out) :
    out.length = min v.length w.length ∧
    ∀ x ∈ out, ∃ (i : ℕ) (r1 r2 : List ℚ), v[i]? = some r1 ∧ w[i]? = some r2 ∧
      x = rowMean r1 r2 := by
  have hperm : out.Perm (List.zipWith rowMean v w) := hout
  constructor
  · rw [hperm.length_eq, List.length_zipWith]
  · intro x hx
    exact mem_zipWith_exists rowMean v w x (hperm.mem_iff.mp hx)

/-- Witness for the amended C2 at the counterexample's mismatched input. -/
theorem weighted_mean_shape_truncation_witness :
    ([(1 : ℚ)]).length = min [[(1 : ℚ)], [2]].length [[(1 : ℚ)]].length ∧
    ∀ x ∈ [(1 : ℚ)], ∃ (i : ℕ) (r1 r2 : List ℚ), [[(1 : ℚ)], [2]][i]? = some r1 ∧
      [[(1 : ℚ)]][i]? = some r2 ∧ x = rowMean r1 r2 :=
  weighted_mean_shape_truncation [[(1 : ℚ)], [2]] [[(1 : ℚ)]] [1] (by
    simp only [weighted_mean_batch, List.zipWith_cons_cons,
      List.zipWith_nil_right]
    rw [show rowMean [(1 : ℚ)] [1] = 1 by norm_num [rowMean]])

/-- C4.  The claimed row-order guarantee is not provided by the code: each
of the three row-indexed functions collects its per-row results through
rayon's order-forfeiting `par_bridge`, so a permuted output is admissible
whose entry `0` differs from the result of input row `0`.  (The gaussian
instance reuses the evaluated example row of `gaussRow_eval_example`.) -/
theorem row_order_not_guaranteed :
    (weighted_mean_batch [[(1 : ℚ)], [2]] [[(1 : ℚ)], [1]] [2, 1] ∧
      ([2, 1] : List ℚ)[0]? ≠ some (rowMean [(1 : ℚ)] [(1 : ℚ)])) ∧
    (find_peaks_batch [[(1 : ℚ), 0], [0, 1]] [1, 2] 0 3 [2, 1] ∧
      ([2, 1] : List ℚ)[0]? ≠ some (rowPeak [(1 : ℚ), 0] [1, 2] 0 3)) ∧
    (estimate_gaussian_params_batch
        [[(1 : ℚ), 1, 1, 2, 6, 10, 6, 2, 1, 1, 1],
         [1, 1, 1, 2, 6, 10, 6, 2, 1, 1, 1]]
        [5, 6, 7, 8, 9, 10, 11, 12, 13, 14, 15] [10, 0] (1 / 2) (3 / 2)
        (some [[0, 0, 0, 0],
          gaussRow [1, 1, 1, 2, 6, 10, 6, 2, 1, 1, 1]
            [5, 6, 7, 8, 9, 10, 11, 12, 13, 14, 15] 10 (1 / 2) (3 / 2)]) ∧
      some ([0, 0, 0, 0] : List ℝ) ≠
        some (gaussRow [1, 1, 1, 2, 6, 10, 6, 2, 1, 1, 1]
          [5, 6, 7, 8, 9, 10, 11, 12, 13, 14, 15] 10 (1 / 2) (3 / 2))) := by
  refine ⟨⟨?_, ?_⟩, ⟨?_, ?_⟩, ?_, ?_⟩
  · simp only [weighted_mean_batch, List.zipWith_cons_cons,
      List.zipWith_nil_right]
    rw [show rowMean [(1 : ℚ)] [1] = 1 by norm_num [rowMean],
      show rowMean [(2 : ℚ)] [1] = 2 by norm_num [rowMean]]
    exact List.Perm.swap 1 2 []
  · rw [show rowMean [(1 : ℚ)] [(1 : ℚ)] = 1 by norm_num [rowMean]]
    decide
  · simp only [find_peaks_batch]
    decide
  · decide
  · simp only [estimate_gaussian_params_batch]
    rw [if_neg (by decide)]
    refine ⟨_, ?_, rfl⟩
    simp only [List.zipWith_cons_cons, List.zipWith_nil_right]
    rw [show gaussRow [(1 : ℚ), 1, 1, 2, 6, 10, 6, 2, 1, 1, 1]
        [5, 6, 7, 8, 9, 10, 11, 12, 13, 14, 15] 0 (1 / 2) (3 / 2) =
        ([0, 0, 0, 0] : List ℝ) by simp [gaussRow]]
    exact List.Perm.swap _ _ []
  · rw [gaussRow_eval_example]
    norm_num

/-- C1.  Evaluation of the sigma estimate at a symmetric row whose
half-maximum centers are `9` and `11` (so `fwhm = 2`): the code returns
`fwhm / (2 * sqrt(ln 2))`, which differs from the claimed standard
conversion `fwhm / (2 * sqrt(2 * ln 2))` — the source dropped the factor
`2` inside the square root, inflating every FWHM-based sigma by `sqrt 2`. -/
theorem fwhm_sigma_constant_bug :
    (gaussRow [1, 1, 1, 2, 6, 10, 6, 2, 1, 1, 1]
      [5, 6, 7, 8, 9, 10, 11, 12, 13, 14, 15] 10 (1 / 2) (3 / 2))[2]? =
      some ((2 : ℝ) / (2 * Real.sqrt (Real.log 2))) ∧
    (2 : ℝ) / (2 * Real.sqrt (Real.log 2)) ≠
      (2 : ℝ) / (2 * Real.sqrt (2 * Real.log 2)) := by
  constructor
  · rw [gaussRow_eval_example]
    simp only [List.getElem?_cons_succ, List.getElem?_cons_zero]
    rw [fwhmDivisor]
    norm_num
  · have hln : (0 : ℝ) < Real.log 2 := Real.log_pos (by norm_num)
    have ha : (0 : ℝ) < Real.sqrt (Real.log 2) := Real.sqrt_pos.mpr hln
    have hab : Real.sqrt (Real.log 2) < Real.sqrt (2 * Real.log 2) :=
      Real.sqrt_lt_sqrt (le_of_lt hln) (by linarith)
    have h2a : (2 : ℝ) / (2 * Real.sqrt (Real.log 2)) =
        1 / Real.sqrt (Real.log 2) := by
      rw [div_eq_div_iff (by positivity) (by positivity)]
      ring
    have h2b : (2 : ℝ) / (2 * Real.sqrt (2 * Real.log 2)) =
        1 / Real.sqrt (2 * Real.log 2) := by
      rw [div_eq_div_iff (by positivity) (by positivity)]
      ring
    rw [h2a, h2b]
    exact ne_of_gt (one_div_lt_one_div_of_lt ha hab)

/-- Projection of the ratio component of the normalizer. -/
theorem normalize_fst (targets terrs refs : List ℝ) :
    (normalize_channels_batch targets terrs refs).1 =
      targets.map (fun t => t / (refs.sum / (refs.length : ℝ))) := rfl

/-- Projection of the error component of the normalizer. -/
theorem normalize_snd (targets terrs refs : List ℝ) :
    (normalize_channels_batch targets terrs refs).2 =
      (targets.zip terrs).map
        (fun p => Real.sqrt ((p.2 / (refs.sum / (refs.length : ℝ))) ^ 2 +
          (p.1 * (if 1 < refs.length then
              Real.sqrt ((refs.map
                (fun x => (x - refs.sum / (refs.length : ℝ)) ^ 2)).sum /
                ((refs.length - 1 : ℕ) : ℝ))
            else 0) / (refs.sum / (refs.length : ℝ)) ^ 2) ^ 2)) := rfl

/-- C8 counterexample.  With reference list `[0]` every reference equals
the common value `r = 0`, target `0` matches it with zero error, yet the
ratio is `0/0` — `NaN` in `f64`, `0` in the exact embedding — and in either
semantics it is not the claimed `1.0`. -/
theorem normalize_round_trip_cex :
    (∀ x ∈ [(0 : ℝ)], x = 0) ∧
    ((normalize_channels_batch [0] [0] [0]).1)[0]? = some 0 ∧
    (0 : ℝ) ≠ 1 := by
  refine ⟨by simp, ?_, by norm_num⟩
  rw [normalize_fst]
  simp

/-- C8 amended.  The round-trip holds once the reference list is nonempty
and the common reference value is nonzero: all references equal to `r ≠ 0`
and a target entry equal to `r` with zero error give ratio exactly `1` and
propagated error exactly `0`. -/
theorem normalize_round_trip_amended (targets terrs refs : List ℝ)
    (r : ℝ) (i : ℕ) (href : refs ≠ []) (hall : ∀ x ∈ refs, x = r)
    (hr : r ≠ 0) (ht : targets[i]? = some r) (hterr : terrs[i]? = some 0) :
    ((normalize_channels_batch targets terrs refs).1)[i]? = some 1 ∧
    ((normalize_channels_batch targets terrs refs).2)[i]? = some 0 := by
  have hlen : (refs.length : ℝ) ≠ 0 := by
    simpa using href
  have havg : refs.sum / (refs.length : ℝ) = r := by
    rw [List.sum_eq_card_nsmul refs r hall, nsmul_eq_mul]
    field_simp
  have hvar : (refs.map (fun x => (x - refs.sum / (refs.length : ℝ)) ^ 2)).sum
      = 0 := by
    apply List.sum_eq_zero
    intro x hx
    obtain ⟨y, hy, rfl⟩ := List.mem_map.mp hx
    rw [hall y hy, havg]
    ring
  have hstd : (if 1 < refs.length then
      Real.sqrt ((refs.map (fun x => (x - refs.sum / (refs.length : ℝ)) ^ 2)).sum /
        ((refs.length - 1 : ℕ) : ℝ))
    else 0) = 0 := by
    split
    · rw [hvar, zero_div, Real.sqrt_zero]
    · rfl
  constructor
  · rw [normalize_fst, List.getElem?_map, ht, Option.map_some', havg,
      div_self hr]
  · rw [normalize_snd, List.getElem?_map]
    have hzip : (targets.zip terrs)[i]? = some (r, 0) := by
      rw [List.getElem?_zip_eq_some]
      exact ⟨ht, hterr⟩
    rw [hzip, Option.map_some', hstd, havg]
    norm_num

/-- Witness for the amended C8 at `r = 2`. -/
theorem normalize_round_trip_witness :
    ((normalize_channels_batch [2] [0] [2]).1)[0]? = some 1 ∧
    ((normalize_channels_batch [2] [0] [2]).2)[0]? = some 0 :=
  normalize_round_trip_amended [2] [0] [2] 2 0 (by simp) (by simp)
    (by norm_num) rfl rfl

/-- Incrementing one in-bounds cell raises a natural-number list sum by 1. -/
theorem sum_set_incr : ∀ (l : List ℕ) (i : ℕ), i < l.length →
    (l.set i (l.getD i 0 + 1)).sum = l.sum + 1
  | [], i, h => absurd h (by simp)
  | x :: t, 0, _ => by simp [List.sum_cons]; omega
  | x :: t, i + 1, h => by
    simp only [List.set_cons_succ, List.getD_cons_succ, List.sum_cons]
    rw [sum_set_incr t i (by simpa using h)]
    omega

/-- Filling loop invariant, length part: each step either leaves the
histogram alone or replaces one cell, so the bin count is preserved. -/
theorem histFold_length (bins : ℕ) (p : ℚ → ℕ) :
    ∀ (fd : List ℚ) (hh : List ℕ), hh.length = bins →
      (fd.foldl (fun hh v =>
        if p v < bins then hh.set (p v) (hh.getD (p v) 0 + 1) else hh) hh).length
        = bins := by
  intro fd
  induction fd with
  | nil => intro hh h; simpa using h
  | cons v fd ih =>
    intro hh h
    rw [List.foldl_cons]
    by_cases hv : p v < bins
    · exact ih _ (by simp [if_pos hv, h])
    · exact ih _ (by simp [if_neg hv, h])

/-- Filling loop invariant, sum part: each value adds exactly one count
when its bin index is in range and nothing otherwise. -/
theorem histFold_sum (bins : ℕ) (p : ℚ → ℕ) :
    ∀ (fd : List ℚ) (hh : List ℕ), hh.length = bins →
      (fd.foldl (fun hh v =>
        if p v < bins then hh.set (p v) (hh.getD (p v) 0 + 1) else hh) hh).sum
        = hh.sum + (fd.filter (fun v => p v < bins)).length := by
  intro fd
  induction fd with
  | nil => intro hh _; simp
  | cons v fd ih =>
    intro hh h
    rw [List.foldl_cons]
    by_cases hv : p v < bins
    · have hset : (hh.set (p v) (hh.getD (p v) 0 + 1)).sum = hh.sum + 1 :=
        sum_set_incr hh (p v) (h ▸ hv)
      rw [if_pos hv, ih _ (by simp [h]), hset, List.filter_cons,
        if_pos (by simpa using hv)]
      simp [Nat.add_comm, Nat.add_assoc, Nat.add_left_comm]
    · rw [if_neg hv, ih _ h, List.filter_cons, if_neg (by simpa using hv)]

/-- Histogram sum: the total count is the number of filtered values whose
bin index lands inside `[0, bins)`. -/
theorem histOf_sum (fd : List ℚ) (bins : ℕ) (rmin rmax : ℚ) :
    (histOf fd bins rmin rmax).sum =
      (fd.filter (fun v =>
        binIdx v rmin ((rmax - rmin) / (bins : ℚ)) < bins)).length := by
  have h := histFold_sum bins (fun v => binIdx v rmin ((rmax - rmin) / (bins : ℚ)))
    fd (List.replicate bins 0) (by simp)
  simpa [histOf, List.sum_replicate] using h

/-- Unpacking membership in the histogram batch: an entry can only come
from a requested channel that passed the `min_samples` gate, and it records
exactly that channel's histogram and filtered count. -/
theorem create_histograms_mem_elim (values : List ℚ) (chans : List ℤ)
    (channels : List ℤ) (bins : ℕ) (rmin rmax : ℚ)
    (c : ℤ) (h : List ℕ) (n : ℕ)
    (hmem : (c, h, n) ∈ create_histograms_batch values chans channels bins rmin rmax) :
    c ∈ channels ∧
    ¬ (filteredValues values chans c rmin rmax).length < 100 ∧
    h = histOf (filteredValues values chans c rmin rmax) bins rmin rmax ∧
    n = (filteredValues values chans c rmin rmax).length := by
  rw [create_histograms_batch, List.mem_filterMap] at hmem
  obtain ⟨c', hc', hmap⟩ := hmem
  cases hpc : processChannel values chans c' bins rmin rmax with
  | none => rw [hpc] at hmap; simp at hmap
  | some r =>
    rw [hpc] at hmap
    simp only [Option.map_some'] at hmap
    obtain ⟨hcc, hr⟩ : c' = c ∧ r = (h, n) := by
      have h1 := congrArg Prod.fst (Option.some.inj hmap)
      have h2 := congrArg Prod.snd (Option.some.inj hmap)
      exact ⟨h1, h2⟩
    subst hcc
    rw [processChannel] at hpc
    by_cases hlen : (filteredValues values chans c' rmin rmax).length < 100
    · rw [if_pos hlen] at hpc; exact absurd hpc (by simp)
    · rw [if_neg hlen] at hpc
      have hr' := Option.some.inj hpc
      rw [hr] at hr'
      refine ⟨hc', hlen, ?_, ?_⟩
      · exact (congrArg Prod.fst hr').symm
      · exact (congrArg Prod.snd hr').symm

/-- C5.  A requested channel with fewer than 100 surviving events is absent
from the histogram batch, and every entry present records at least 100
surviving events. -/
theorem histogram_min_samples_gate (values : List ℚ) (chans : List ℤ)
    (channels : List ℤ) (bins : ℕ) (rmin rmax : ℚ) (cid : ℤ)
    (hfew : (filteredValues values chans cid rmin rmax).length < 100) :
    (∀ e ∈ create_histograms_batch values chans channels bins rmin rmax,
      e.1 ≠ cid) ∧
    (∀ (c : ℤ) (h : List ℕ) (n : ℕ),
      (c, h, n) ∈ create_histograms_batch values chans channels bins rmin rmax →
      100 ≤ n) := by
  constructor
  · rintro ⟨c, h, n⟩ hmem rfl
    exact (create_histograms_mem_elim values chans channels bins rmin rmax
      _ h n hmem).2.1 hfew
  · intro c h n hmem
    obtain ⟨-, hge, -, hn⟩ :=
      create_histograms_mem_elim values chans channels bins rmin rmax c h n hmem
    omega

/-- Witness for C5: three events on channel 1 leave channel 2 with zero
survivors, so no entry for channel 2 (indeed none at all) appears. -/
theorem histogram_min_samples_gate_witness :
    (∀ e ∈ create_histograms_batch [(1 : ℚ), 2, 3] [1, 1, 1] [1, 2] 2 0 10,
      e.1 ≠ 2) ∧
    (∀ (c : ℤ) (h : List ℕ) (n : ℕ),
      (c, h, n) ∈ create_histograms_batch [(1 : ℚ), 2, 3] [1, 1, 1] [1, 2] 2 0 10 →
      100 ≤ n) :=
  histogram_min_samples_gate [(1 : ℚ), 2, 3] [1, 1, 1] [1, 2] 2 0 10 2 (by decide)

/-- C6.  Every histogram-batch entry records as `sample_count` exactly the
number of events passing the channel + `[range_min, range_max)` filter, the
binned counts sum to at most that, with equality exactly when no filtered
value was discarded by the upper bin-index bound. -/
theorem histogram_count_conservation (values : List ℚ) (chans : List ℤ)
    (channels : List ℤ) (bins : ℕ) (rmin rmax : ℚ)
    (c : ℤ) (h : List ℕ) (n : ℕ)
    (hmem : (c, h, n) ∈ create_histograms_batch values chans channels bins rmin rmax) :
    n = (filteredValues values chans c rmin rmax).length ∧
    h.sum ≤ n ∧
    (h.sum = n ↔ ∀ v ∈ filteredValues values chans c rmin rmax,
      binIdx v rmin ((rmax - rmin) / (bins : ℚ)) < bins) := by
  obtain ⟨-, -, hh, hn⟩ :=
    create_histograms_mem_elim values chans channels bins rmin rmax c h n hmem
  subst hh
  refine ⟨hn, ?_, ?_⟩
  · rw [histOf_sum, hn]
    exact List.length_filter_le _ _
  · rw [histOf_sum, hn, ← List.countP_eq_length_filter,
      List.countP_eq_length]
    simp

/-- Witness for C6 on 100 identical in-range events of channel 1. -/
theorem histogram_count_conservation_witness :
    100 = (filteredValues (List.replicate 100 (0 : ℚ))
      (List.replicate 100 (1 : ℤ)) 1 0 1).length ∧
    (histOf (filteredValues (List.replicate 100 (0 : ℚ))
      (List.replicate 100 (1 : ℤ)) 1 0 1) 1 0 1).sum ≤ 100 ∧
    ((histOf (filteredValues (List.replicate 100 (0 : ℚ))
        (List.replicate 100 (1 : ℤ)) 1 0 1) 1 0 1).sum = 100 ↔
      ∀ v ∈ filteredValues (List.replicate 100 (0 : ℚ))
        (List.replicate 100 (1 : ℤ)) 1 0 1,
        binIdx v 0 ((1 - 0) / ((1 : ℕ) : ℚ)) < 1) := by
  have hfd : filteredValues (List.replicate 100 (0 : ℚ))
      (List.replicate 100 (1 : ℤ)) 1 0 1 = List.replicate 100 (0 : ℚ) := by
    rw [filteredValues, List.zip_replicate]
    simp
  have hmem : ((1 : ℤ),
      histOf (filteredValues (List.replicate 100 (0 : ℚ))
        (List.replicate 100 (1 : ℤ)) 1 0 1) 1 0 1, 100) ∈
      create_histograms_batch (List.replicate 100 (0 : ℚ))
        (List.replicate 100 (1 : ℤ)) [1] 1 0 1 := by
    rw [create_histograms_batch]
    simp only [List.filterMap_cons, List.filterMap_nil, processChannel, hfd]
    simp [hfd]
  have h := histogram_count_conservation (List.replicate 100 (0 : ℚ))
    (List.replicate 100 (1 : ℤ)) [1] 1 0 1 1 _ 100 hmem
  simpa using h

/-- Characterization of the peak scan of lib.rs 136-144: folding `peakStep`
over a strictly increasing index list either leaves the accumulator
untouched (no strict improvement anywhere) or lands on an index of the
list carrying the maximum, with all strictly smaller indices strictly
below it (first-occurrence tie-break). -/
theorem peakFold_char (hist : List ℚ) :
    ∀ (l : List ℕ), l.Pairwise (· < ·) → ∀ (mv : ℚ) (mi : ℕ),
      (l.foldl (peakStep hist) (mv, mi) = (mv, mi) ∧
        ∀ x ∈ l, hist.getD x 0 ≤ mv) ∨
      ((l.foldl (peakStep hist) (mv, mi)).2 ∈ l ∧
        (l.foldl (peakStep hist) (mv, mi)).1 =
          hist.getD (l.foldl (peakStep hist) (mv, mi)).2 0 ∧
        mv < (l.foldl (peakStep hist) (mv, mi)).1 ∧
        (∀ x ∈ l, hist.getD x 0 ≤ (l.foldl (peakStep hist) (mv, mi)).1) ∧
        (∀ x ∈ l, x < (l.foldl (peakStep hist) (mv, mi)).2 →
          hist.getD x 0 < (l.foldl (peakStep hist) (mv, mi)).1)) := by
  intro l
  induction l with
  | nil => exact fun _ mv mi => Or.inl ⟨rfl, by simp⟩
  | cons a xs ih =>
    intro hpw mv mi
    have hpw' : xs.Pairwise (· < ·) := (List.pairwise_cons.mp hpw).2
    have hagt : ∀ x ∈ xs, a < x := (List.pairwise_cons.mp hpw).1
    rw [List.foldl_cons]
    by_cases hstep : mv < hist.getD a 0
    · have hs : peakStep hist (mv, mi) a = (hist.getD a 0, a) := by
        simp only [peakStep, if_pos hstep]
      rw [hs]
      rcases ih hpw' (hist.getD a 0) a with ⟨heq, hb⟩ | ⟨hmem, heq, hlt, hb, htb⟩
      · right
        rw [heq]
        refine ⟨List.mem_cons_self a xs, rfl, hstep, ?_, ?_⟩
        · intro x hx
          rcases List.mem_cons.mp hx with rfl | hx
          · exact le_refl _
          · exact hb x hx
        · intro x hx hxa
          rcases List.mem_cons.mp hx with rfl | hx
          · exact absurd hxa (lt_irrefl x)
          · exact absurd hxa (not_lt.mpr (le_of_lt (hagt x hx)))
      · right
        refine ⟨List.mem_cons_of_mem a hmem, heq, lt_trans hstep hlt, ?_, ?_⟩
        · intro x hx
          rcases List.mem_cons.mp hx with rfl | hx
          · exact le_of_lt hlt
          · exact hb x hx
        · intro x hx hxlt
          rcases List.mem_cons.mp hx with rfl | hx
          · exact hlt
          · exact htb x hx hxlt
    · have hs : peakStep hist (mv, mi) a = (mv, mi) := by
        simp only [peakStep, if_neg hstep]
      rw [hs]
      rcases ih hpw' mv mi with ⟨heq, hb⟩ | ⟨hmem, heq, hlt, hb, htb⟩
      · left
        refine ⟨heq, fun x hx => ?_⟩
        rcases List.mem_cons.mp hx with rfl | hx
        · exact not_lt.mp hstep
        · exact hb x hx
      · right
        refine ⟨List.mem_cons_of_mem a hmem, heq, hlt, ?_, ?_⟩
        · intro x hx
          rcases List.mem_cons.mp hx with rfl | hx
          · exact le_of_lt (lt_of_le_of_lt (not_lt.mp hstep) hlt)
          · exact hb x hx
        · intro x hx hxlt
          rcases List.mem_cons.mp hx with rfl | hx
          · exact lt_of_le_of_lt (not_lt.mp hstep) hlt
          · exact htb x hx hxlt

/-- C3 counterexample.  Row `[5,0,0]` with centers `[0,1,2]` and window
`[1,2]`: the restricted set is `{1, 2}`, every restricted count is `0`, so
the scan never updates and the row yields `bin_centers[0] = 0` — the
single-row batch output is `[0]` under every collection order — a center
carried by no restricted index (the claim predicts center `1`, the lowest
restricted index, and that the chosen index is restricted). -/
theorem find_peaks_cex :
    find_peaks_batch [[(5 : ℚ), 0, 0]] [0, 1, 2] 1 2 [0] ∧
    (∀ out, find_peaks_batch [[(5 : ℚ), 0, 0]] [0, 1, 2] 1 2 out →
      out = [0]) ∧
    validIndices [(0 : ℚ), 1, 2] 1 2 = [1, 2] ∧
    ∀ j ∈ validIndices [(0 : ℚ), 1, 2] 1 2, [(0 : ℚ), 1, 2].getD j 0 ≠ 0 := by
  refine ⟨?_, ?_, by decide, by decide⟩
  · simp only [find_peaks_batch]
    decide
  · intro out h
    have h' : out.Perm [rowPeak [(5 : ℚ), 0, 0] [0, 1, 2] 1 2] := by
      simpa only [find_peaks_batch, List.map_cons, List.map_nil] using h
    rw [show rowPeak [(5 : ℚ), 0, 0] [0, 1, 2] 1 2 = 0 by decide] at h'
    exact List.perm_singleton.mp h'

/-- C3 amended.  Whenever some restricted index carries a strictly positive
count, the result is the bin center at the restricted index of greatest
count, ties broken in favor of the lowest restricted index, and that index
belongs to the restricted set.  (When every restricted count is
nonpositive, the scan never updates and the code returns `bin_centers[0]`,
which need not be restricted — see the counterexample.) -/
theorem find_peaks_selection (hist bins : List ℚ) (rmin rmax : ℚ)
    (hpos : ∃ i ∈ validIndices bins rmin rmax, 0 < hist.getD i 0) :
    ∃ j ∈ validIndices bins rmin rmax,
      rowPeak hist bins rmin rmax = bins.getD j 0 ∧
      (∀ k ∈ validIndices bins rmin rmax, hist.getD k 0 ≤ hist.getD j 0) ∧
      (∀ k ∈ validIndices bins rmin rmax, k < j →
        hist.getD k 0 < hist.getD j 0) := by
  obtain ⟨i0, hi0, hpos0⟩ := hpos
  have hvne : validIndices bins rmin rmax ≠ [] := List.ne_nil_of_mem hi0
  have hpw : (validIndices bins rmin rmax).Pairwise (· < ·) :=
    (List.pairwise_lt_range _).filter _
  rcases peakFold_char hist _ hpw 0 0 with ⟨_, hb⟩ | ⟨hmem, heq, _, hb, htb⟩
  · exact absurd (hb i0 hi0) (not_le.mpr hpos0)
  · refine ⟨((validIndices bins rmin rmax).foldl (peakStep hist) (0, 0)).2,
      hmem, ?_, ?_, ?_⟩
    · rw [rowPeak]
      simp only [if_neg hvne]
    · intro k hk
      have := hb k hk
      rwa [heq] at this
    · intro k hk hklt
      have := htb k hk hklt
      rwa [heq] at this

/-- Witness for the amended C3 at the spec's tie-break example. -/
theorem find_peaks_selection_witness :
    ∃ j ∈ validIndices [(1 : ℚ), 2, 3] 0 4,
      rowPeak [(5 : ℚ), 5, 3] [1, 2, 3] 0 4 = [(1 : ℚ), 2, 3].getD j 0 ∧
      (∀ k ∈ validIndices [(1 : ℚ), 2, 3] 0 4,
        [(5 : ℚ), 5, 3].getD k 0 ≤ [(5 : ℚ), 5, 3].getD j 0) ∧
      (∀ k ∈ validIndices [(1 : ℚ), 2, 3] 0 4, k < j →
        [(5 : ℚ), 5, 3].getD k 0 < [(5 : ℚ), 5, 3].getD j 0) :=
  find_peaks_selection [(5 : ℚ), 5, 3] [1, 2, 3] 0 4 ⟨0, by decide, by decide⟩

/-- Inserting a non-NaN value into a non-NaN list never meets a failing
comparison, produces one more element, and keeps the list non-NaN. -/
theorem insertByF_ok (x : ℚ) : ∀ (l : List (Option ℚ)),
    (∀ y ∈ l, y ≠ none) →
    ∃ r, insertByF (some x) l = Except.ok r ∧ r.length = l.length + 1 ∧
      ∀ z ∈ r, z ≠ none := by
  intro l
  induction l with
  | nil => exact fun _ => ⟨[some x], rfl, rfl, by simp⟩
  | cons y ys ih =>
    intro hl
    obtain ⟨b, rfl⟩ : ∃ b, y = some b := by
      cases y with
      | none => exact absurd rfl (hl none (List.mem_cons_self _ _))
      | some b => exact ⟨b, rfl⟩
    simp only [insertByF, partialCmpF]
    by_cases hc : compare x b = Ordering.gt
    · rw [if_pos hc]
      obtain ⟨r, hr, hrlen, hrn⟩ := ih (fun z hz => hl z (List.mem_cons_of_mem _ hz))
      refine ⟨some b :: r, by rw [hr]; rfl, by simp [hrlen], ?_⟩
      intro z hz
      rcases List.mem_cons.mp hz with rfl | hz
      · exact fun h => Option.noConfusion h
      · exact hrn z hz
    · rw [if_neg hc]
      refine ⟨some x :: some b :: ys, rfl, by simp, ?_⟩
      intro z hz
      rcases List.mem_cons.mp hz with rfl | hz
      · exact fun h => Option.noConfusion h
      · exact hl z hz

/-- Sorting a NaN-free list succeeds, preserving length and freeness. -/
theorem sortByF_ok : ∀ (l : List (Option ℚ)), (∀ y ∈ l, y ≠ none) →
    ∃ s, sortByF l = Except.ok s ∧ s.length = l.length ∧
      ∀ z ∈ s, z ≠ none := by
  intro l
  induction l with
  | nil => exact fun _ => ⟨[], rfl, rfl, by simp⟩
  | cons x xs ih =>
    intro hl
    obtain ⟨a, rfl⟩ : ∃ a, x = some a := by
      cases x with
      | none => exact absurd rfl (hl none (List.mem_cons_self _ _))
      | some a => exact ⟨a, rfl⟩
    obtain ⟨s, hs, hslen, hsn⟩ := ih (fun z hz => hl z (List.mem_cons_of_mem _ hz))
    obtain ⟨r, hr, hrlen, hrn⟩ := insertByF_ok a s hsn
    refine ⟨r, ?_, by rw [hrlen, hslen]; rfl, hrn⟩
    rw [sortByF, hs]
    exact hr

/-- Sorting a list of length at least 2 containing a NaN panics: some
comparison meets the NaN and the `unwrap` fails. -/
theorem sortByF_err : ∀ (l : List (Option ℚ)), 2 ≤ l.length → none ∈ l →
    sortByF l = Except.error () := by
  intro l
  induction l with
  | nil => intro h; simp at h
  | cons x xs ih =>
    intro hlen hnan
    by_cases hx2 : none ∈ xs
    · by_cases hlen2 : 2 ≤ xs.length
      · rw [sortByF, ih hlen2 hx2]
        rfl
      · have hxs : xs = [none] := by
          cases xs with
          | nil => simp at hx2
          | cons y ys =>
            cases ys with
            | nil =>
              have h : none = y := by simpa using hx2
              rw [← h]
            | cons z zs =>
              exact absurd (by simp only [List.length_cons]; omega) hlen2
        subst hxs
        rw [sortByF, show sortByF [none] = Except.ok [none] from rfl]
        cases x <;> rfl
    · have hx : x = none := by
        rcases List.mem_cons.mp hnan with h | h
        · exact h.symm
        · exact absurd h hx2
      subst hx
      have hxs : ∀ y ∈ xs, y ≠ none := fun y hy h => hx2 (h ▸ hy)
      obtain ⟨s, hs, hslen, -⟩ := sortByF_ok xs hxs
      rw [sortByF, hs]
      show insertByF none s = Except.error ()
      cases s with
      | nil =>
        exfalso
        have : xs.length = 0 := by simpa using hslen.symm
        simp only [List.length_cons] at hlen
        omega
      | cons h t => rfl

/-- C10.  Any row reaching the offset computation (at least 10 windowed
counts): if all counts are non-NaN the sort comparator never fails and the
accessed index (`len/10` when `len > 10`, else `0`) is in bounds, so a
value is returned; if any count is NaN the unwrapped comparison fails and
the whole call errors instead of returning a result. -/
theorem offset_sort_nan_behavior (ys : List (Option ℚ))
    (hlen : 10 ≤ ys.length) :
    ((∀ y ∈ ys, y ≠ none) →
      (∃ v, offsetE ys = Except.ok v) ∧
      (if 10 < ys.length then ys.length / 10 else 0) < ys.length) ∧
    (none ∈ ys → offsetE ys = Except.error ()) := by
  constructor
  · intro hok
    obtain ⟨s, hs, hslen, -⟩ := sortByF_ok ys hok
    have hidx : (if 10 < ys.length then ys.length / 10 else 0) < ys.length := by
      by_cases h : 10 < ys.length
      · rw [if_pos h]
        exact Nat.div_lt_self (by omega) (by omega)
      · rw [if_neg h]
        omega
    refine ⟨?_, hidx⟩
    have hidx' : (if 10 < ys.length then ys.length / 10 else 0) < s.length := by
      rw [hslen]; exact hidx
    obtain ⟨v, hv⟩ : ∃ v, s[if 10 < ys.length then ys.length / 10 else 0]? = some v :=
      ⟨_, List.getElem?_eq_getElem hidx'⟩
    exact ⟨v, by simp only [offsetE, hs, hv]⟩
  · intro hnan
    simp only [offsetE, sortByF_err ys (by omega) hnan]

/-- Witness for C10: ten non-NaN counts return an offset; a NaN among ten
counts makes the call fail. -/
theorem offset_sort_nan_behavior_witness :
    (∃ v, offsetE (List.replicate 10 (some (1 : ℚ))) = Except.ok v) ∧
    offsetE [none, some 1, some 2, some 3, some 4, some 5, some 6, some 7,
      some 8, some 9] = Except.error () := by
  constructor
  · exact ((offset_sort_nan_behavior (List.replicate 10 (some (1 : ℚ)))
      (by decide)).1 (by decide)).1
  · exact (offset_sort_nan_behavior [none, some 1, some 2, some 3, some 4,
      some 5, some 6, some 7, some 8, some 9] (by decide)).2 (by decide)
